import Mathlib

/-!
Verification of the `zagro` event emitter (Go, `zagro.go`).

The Go package implements a small publish/subscribe emitter:

* `Zagro` holds `events : map[string][]listener`, a counter `nextID`, and a
  per-event limit `maxListeners` (0 = unlimited).
* `On` appends a fresh listener (id `nextID+1`) to the event's slice unless
  the limit is reached, in which case it returns `(0, error)` untouched.
* `Once` wraps the user callback so that the wrapper first calls
  `Off(event, id)` with its own captured id and then runs the user callback.
* `Emit` copies the callback slice under the lock, releases the lock, and
  invokes the copies in order.
* `Off` removes the first listener with a matching id and deletes the key
  when the remaining slice is empty; `RemoveAll` deletes the key;
  `Count`/`CountAll` are read-only.

The embedding below is sequential (the Go mutex serialises every critical
section; claims here are about sequential behaviour).  Callbacks are deep
embedded as lists of `Act`ions so that a callback can re-enter the emitter
(register, remove, emit) exactly as a Go closure can; a `tell` action is
the observable "user code ran" event, recording its tag and the message in
a trace.  Nested `Emit`s are bounded by explicit fuel (Go has no bound;
all theorems either hold for every fuel or use enough fuel for the nesting
depth they exercise).  The Go `map` is embedded as an association list with
first-match lookup; `nextID` (a Go `int` only ever incremented from 0) is a
`Nat`, and `MaxListeners` (documented as 0-or-positive) likewise.
-/

/-- Mirrors Go `ZagroMessage`; the opaque `Data any` payload is embedded as
a `Nat` since no emitter operation inspects it. -/
structure ZagroMessage where
  Data : Nat
deriving DecidableEq, Repr

/-- Deep embedding of a callback body (`ZagroCallback`): the sequence of
re-entrant emitter calls and observable user actions the closure performs
when invoked with the message. `tell tag` is pure user code that records
`(tag, msg)`; the other constructors call back into the emitter. -/
inductive Act where
  | tell (tag : Nat)
  | on (event : String) (body : List Act)
  | once (event : String) (body : List Act)
  | off (event : String) (id : Nat)
  | removeAll (event : String)
  | emit (event : String) (msg : ZagroMessage)

/-- Mirrors Go `listener`: a callback tagged with its unique id. -/
structure listener where
  id : Nat
  callback : List Act

/-- Mirrors Go `ZagroOptions`. -/
structure ZagroOptions where
  MaxListeners : Nat

/-- Mirrors Go `Zagro` (the mutex has no sequential content). The Go
`map[string][]listener` is an association list read by first match. -/
structure Zagro where
  events : List (String × List listener)
  nextID : Nat
  maxListeners : Nat

/-- Go map read `m[k]` (comma-ok form): first entry with key `k`. -/
def lookupEvent : List (String × List listener) → String → Option (List listener)
  | [], _ => none
  | (k, v) :: rest, ev => if k = ev then some v else lookupEvent rest ev

/-- Go map read `m[k]` (value form): nil slice when the key is absent. -/
def getEvent (m : List (String × List listener)) (ev : String) : List listener :=
  (lookupEvent m ev).getD []

/-- Go map write `m[k] = v`: replace the (first) entry or append a new one. -/
def setEvent : List (String × List listener) → String → List listener →
    List (String × List listener)
  | [], k, v => [(k, v)]
  | (k', v') :: rest, k, v =>
    if k' = k then (k, v) :: rest else (k', v') :: setEvent rest k v

/-- Go `delete(m, k)`: drop every entry with key `k` (Go keys are unique). -/
def delEvent : List (String × List listener) → String → List (String × List listener)
  | [], _ => []
  | (k', v) :: rest, k => if k' = k then delEvent rest k else (k', v) :: delEvent rest k

/-- Mirrors Go `NewZagro(opts ...ZagroOptions)`. -/
def NewZagro (opts : List ZagroOptions) : Zagro :=
  { events := []
    nextID := 0
    maxListeners := match opts with
      | [] => 0
      | o :: _ => o.MaxListeners }

/-- Mirrors Go `(*Zagro).On`: reject when a positive limit is already
reached (returning id 0 and an error, state untouched), otherwise mint
`nextID+1` and append the listener to the event's slice. -/
def Zagro.On (e : Zagro) (event : String) (cb : List Act) :
    Nat × Option String × Zagro :=
  if 0 < e.maxListeners ∧ e.maxListeners ≤ (getEvent e.events event).length then
    (0, some ("max listeners exceeded for event: " ++ event), e)
  else
    let nid := e.nextID + 1
    (nid, none,
      { e with
        nextID := nid
        events := setEvent e.events event
          (getEvent e.events event ++ [{ id := nid, callback := cb }]) })

/-- Mirrors Go `(*Zagro).Once`: register a wrapper that first calls
`Off(event, id)` with the id captured from its own registration and then
runs the user callback.  When `On` succeeds the captured id is exactly
`e.nextID + 1`; when it fails nothing is stored. -/
def Zagro.Once (e : Zagro) (event : String) (cb : List Act) :
    Nat × Option String × Zagro :=
  e.On event (Act.off event (e.nextID + 1) :: cb)

/-- Go's first-match removal loop inside `Off` (`break` after the hit). -/
def removeById : List listener → Nat → List listener
  | [], _ => []
  | l :: rest, i => if l.id = i then rest else l :: removeById rest i

/-- Mirrors Go `(*Zagro).Off`: no-op when the event key is absent;
otherwise drop the first listener with the given id and delete the key
when the remaining slice is empty. -/
def Zagro.Off (e : Zagro) (event : String) (id : Nat) : Zagro :=
  match lookupEvent e.events event with
  | none => e
  | some ls =>
    let ls' := removeById ls id
    if ls'.length = 0 then { e with events := delEvent e.events event }
    else { e with events := setEvent e.events event ls' }

/-- Mirrors Go `(*Zagro).RemoveAll`. -/
def Zagro.RemoveAll (e : Zagro) (event : String) : Zagro :=
  { e with events := delEvent e.events event }

/-- Mirrors Go `(*Zagro).Count`. -/
def Zagro.Count (e : Zagro) (event : String) : Nat :=
  (getEvent e.events event).length

/-- Mirrors Go `(*Zagro).CountAll`. -/
def Zagro.CountAll (e : Zagro) : Nat :=
  e.events.foldl (fun count p => count + p.2.length) 0

/-- The trace of user-callback observations: `(tag, message)` per `tell`. -/
abbrev Trace := List (Nat × ZagroMessage)

/-- Go `Emit`'s snapshot loop: the callbacks of the event, copied under the
lock, flattened into one action sequence (running the concatenation is the
sequential invocation of the copied closures). -/
def snapshot (e : Zagro) (event : String) : List Act :=
  ((getEvent e.events event).map listener.callback).flatten

/-- Sequential interpreter for a list of actions (the body of `Emit`'s
dispatch loop after the snapshot).  Re-entrant emitter calls act on the
current state; a nested `emit` runs through `emitF` (the fuel-bounded
dispatcher). -/
def runSeq (emitF : Zagro → Trace → String → ZagroMessage → Zagro × Trace) :
    Zagro → Trace → ZagroMessage → List Act → Zagro × Trace
  | s, tr, _, [] => (s, tr)
  | s, tr, msg, Act.tell u :: rest => runSeq emitF s (tr ++ [(u, msg)]) msg rest
  | s, tr, msg, Act.on ev b :: rest => runSeq emitF (s.On ev b).2.2 tr msg rest
  | s, tr, msg, Act.once ev b :: rest => runSeq emitF (s.Once ev b).2.2 tr msg rest
  | s, tr, msg, Act.off ev i :: rest => runSeq emitF (s.Off ev i) tr msg rest
  | s, tr, msg, Act.removeAll ev :: rest => runSeq emitF (s.RemoveAll ev) tr msg rest
  | s, tr, msg, Act.emit ev m :: rest =>
    let p := emitF s tr ev m
    runSeq emitF p.1 p.2 msg rest

/-- Fuel-bounded nested dispatch: with fuel `f+1` an emission snapshots the
event and runs the copied callbacks, nested emissions receiving fuel `f`;
fuel 0 truncates (Go itself recurses unboundedly). -/
def emitAux : Nat → Zagro → Trace → String → ZagroMessage → Zagro × Trace
  | 0, s, tr, _, _ => (s, tr)
  | f + 1, s, tr, ev, m => runSeq (emitAux f) s tr m (snapshot s ev)

/-- Mirrors Go `(*Zagro).Emit`: copy the listener slice, then invoke every
copied callback in order.  `fuel` bounds only nested (re-entrant)
emissions; the top-level dispatch always runs. -/
def Zagro.Emit (e : Zagro) (fuel : Nat) (event : String) (msg : ZagroMessage) :
    Zagro × Trace :=
  runSeq (emitAux fuel) e [] msg (snapshot e event)

/-- `n` sequential top-level `Emit` calls on the same event, traces
concatenated in order. -/
def emitN (fuel : Nat) : Zagro → String → ZagroMessage → Nat → Zagro × Trace
  | s, _, _, 0 => (s, [])
  | s, ev, m, n + 1 =>
    let p := s.Emit fuel ev m
    let q := emitN fuel p.1 ev m n
    (q.1, p.2 ++ q.2)

/-- Number of times the user callback observed as `tag` fired in a trace. -/
def tells (tag : Nat) (tr : Trace) : Nat :=
  tr.countP (fun q => q.1 == tag)

/-- Register listeners whose callbacks are the pure observations
`tell t₁, tell t₂, …` in the given order (the shape needed to watch
dispatch order). -/
def regAll (s : Zagro) (event : String) (tags : List Nat) : Zagro :=
  tags.foldl (fun s' t => (s'.On event [Act.tell t]).2.2) s

/-- One top-level call of the public API, for reasoning about every state
reachable from a fresh emitter.  `countOp`/`countAllOp` leave the state as
they found it because the Go methods only read under the lock. -/
inductive Op where
  | onOp (event : String) (cb : List Act)
  | onceOp (event : String) (cb : List Act)
  | emitOp (fuel : Nat) (event : String) (msg : ZagroMessage)
  | offOp (event : String) (id : Nat)
  | removeAllOp (event : String)
  | countOp (event : String)
  | countAllOp

/-- State after one API call. -/
def applyOp (s : Zagro) : Op → Zagro
  | .onOp ev cb => (s.On ev cb).2.2
  | .onceOp ev cb => (s.Once ev cb).2.2
  | .emitOp fuel ev m => (s.Emit fuel ev m).1
  | .offOp ev i => s.Off ev i
  | .removeAllOp ev => s.RemoveAll ev
  | .countOp _ => s
  | .countAllOp => s

/-- State reached from a fresh emitter by a sequence of API calls. -/
def runScript (opts : List ZagroOptions) (ops : List Op) : Zagro :=
  ops.foldl applyOp (NewZagro opts)

/-- The listener ids handed back by the successful registrations of an API
call sequence, in call order. -/
def regIds : Zagro → List Op → List Nat
  | _, [] => []
  | s, op :: rest =>
    (match op with
      | .onOp ev cb => if (s.On ev cb).2.1 = none then [(s.On ev cb).1] else []
      | .onceOp ev cb => if (s.Once ev cb).2.1 = none then [(s.Once ev cb).1] else []
      | _ => []) ++ regIds (applyOp s op) rest

mutual
/-- A callback action is tame for tag `t` when it never re-emits and never
reports `t`, and registers only such bodies — the non-reentrant callbacks
for which the once-semantics claim can hold. -/
def tameAct (t : Nat) : Act → Bool
  | .tell u => u != t
  | .on _ b => tameActs t b
  | .once _ b => tameActs t b
  | .off _ _ => true
  | .removeAll _ => true
  | .emit _ _ => false

def tameActs (t : Nat) : List Act → Bool
  | [] => true
  | a :: rest => tameAct t a && tameActs t rest
end

/-- Every registered callback in the state is tame for tag `t`. -/
def TameSt (t : Nat) (s : Zagro) : Prop :=
  ∀ p ∈ s.events, ∀ l ∈ p.2, tameActs t l.callback = true

/-- The registry keys are distinct (always true of a Go map). -/
def KeysNodup (s : Zagro) : Prop := (s.events.map Prod.fst).Nodup

/-- Every stored listener id was minted by the counter (always true of a
reachable emitter). -/
def IdsLe (s : Zagro) : Prop := ∀ p ∈ s.events, ∀ l ∈ p.2, l.id ≤ s.nextID

/-- No event key maps to an empty listener slice. -/
def NonEmptyVals (s : Zagro) : Prop := ∀ p ∈ s.events, p.2 ≠ []

/-- Dispatch invariant while a pending `Once` wrapper (id `wid`, observing
tag `t`, on event `ev`) may still be registered: everything else is tame,
the wrapper occurs at most once and only under `ev`, and ids are coherent
so that no fresh registration can collide with `wid`. -/
structure OnceInv (t wid : Nat) (ev : String) (s : Zagro) : Prop where
  othersTame : ∀ p ∈ s.events, ∀ l ∈ p.2, l.id ≠ wid → tameActs t l.callback = true
  wrapPinned : ∀ p ∈ s.events, ∀ l ∈ p.2, l.id = wid →
    p.1 = ev ∧ l.callback = [Act.off ev wid, Act.tell t]
  wrapCount : (getEvent s.events ev).countP (fun l => l.id == wid) ≤ 1
  keysNodup : KeysNodup s
  idsLe : IdsLe s
  widLe : wid ≤ s.nextID

/-! ### Association-list lemmas for the registry map -/

theorem lookupEvent_nil (ev : String) : lookupEvent [] ev = none := rfl

theorem lookupEvent_cons (k ev : String) (v : List listener)
    (rest : List (String × List listener)) :
    lookupEvent ((k, v) :: rest) ev =
      if k = ev then some v else lookupEvent rest ev := rfl

theorem setEvent_nil (k : String) (v : List listener) :
    setEvent [] k v = [(k, v)] := rfl

theorem setEvent_cons (k' k : String) (v' v : List listener)
    (rest : List (String × List listener)) :
    setEvent ((k', v') :: rest) k v =
      if k' = k then (k, v) :: rest else (k', v') :: setEvent rest k v := rfl

theorem delEvent_nil (k : String) : delEvent [] k = [] := rfl

theorem delEvent_cons (k' k : String) (v : List listener)
    (rest : List (String × List listener)) :
    delEvent ((k', v) :: rest) k =
      if k' = k then delEvent rest k else (k', v) :: delEvent rest k := rfl

theorem getEvent_eq_of_lookup_none {m : List (String × List listener)} {ev : String}
    (h : lookupEvent m ev = none) : getEvent m ev = [] := by
  simp [getEvent, h]

theorem getEvent_eq_of_lookup_some {m : List (String × List listener)} {ev : String}
    {ls : List listener} (h : lookupEvent m ev = some ls) : getEvent m ev = ls := by
  simp [getEvent, h]

theorem lookupEvent_mem {m : List (String × List listener)} {ev : String}
    {ls : List listener} (h : lookupEvent m ev = some ls) : (ev, ls) ∈ m := by
  induction m with
  | nil => simp [lookupEvent] at h
  | cons p rest ih =>
    obtain ⟨k, v⟩ := p
    by_cases hk : k = ev
    · subst hk
      simp [lookupEvent] at h
      subst h
      exact List.mem_cons_self _ _
    · simp [lookupEvent, hk] at h
      exact List.mem_cons_of_mem _ (ih h)

theorem getEvent_mem {m : List (String × List listener)} {ev : String}
    {l : listener} (h : l ∈ getEvent m ev) :
    ∃ ls, lookupEvent m ev = some ls ∧ l ∈ ls := by
  cases hl : lookupEvent m ev with
  | none => rw [getEvent_eq_of_lookup_none hl] at h; simp at h
  | some ls => exact ⟨ls, rfl, by rwa [getEvent_eq_of_lookup_some hl] at h⟩

theorem lookupEvent_setEvent_self (m : List (String × List listener))
    (k : String) (v : List listener) : lookupEvent (setEvent m k v) k = some v := by
  induction m with
  | nil => simp [setEvent, lookupEvent]
  | cons p rest ih =>
    obtain ⟨k', v'⟩ := p
    by_cases hk : k' = k
    · simp [setEvent, hk, lookupEvent]
    · simp [setEvent, hk, lookupEvent, ih]

theorem getEvent_setEvent_self (m : List (String × List listener))
    (k : String) (v : List listener) : getEvent (setEvent m k v) k = v := by
  simp [getEvent, lookupEvent_setEvent_self]

theorem lookupEvent_setEvent_ne (m : List (String × List listener))
    {k k' : String} (v : List listener) (h : k' ≠ k) :
    lookupEvent (setEvent m k v) k' = lookupEvent m k' := by
  induction m with
  | nil =>
    rw [setEvent_nil, lookupEvent_cons, if_neg (Ne.symm h), lookupEvent_nil]
  | cons p rest ih =>
    obtain ⟨k₀, v₀⟩ := p
    by_cases hk : k₀ = k
    · subst hk
      rw [setEvent_cons, if_pos rfl, lookupEvent_cons, if_neg (Ne.symm h),
        lookupEvent_cons, if_neg (Ne.symm h)]
    · rw [setEvent_cons, if_neg hk, lookupEvent_cons, lookupEvent_cons, ih]

theorem getEvent_setEvent_ne (m : List (String × List listener))
    {k k' : String} (v : List listener) (h : k' ≠ k) :
    getEvent (setEvent m k v) k' = getEvent m k' := by
  simp [getEvent, lookupEvent_setEvent_ne m v h]

theorem lookupEvent_delEvent_self (m : List (String × List listener)) (k : String) :
    lookupEvent (delEvent m k) k = none := by
  induction m with
  | nil => simp [delEvent, lookupEvent]
  | cons p rest ih =>
    obtain ⟨k', v⟩ := p
    by_cases hk : k' = k
    · simp [delEvent, hk, ih]
    · simp [delEvent, hk, lookupEvent, ih]

theorem lookupEvent_delEvent_ne (m : List (String × List listener))
    {k k' : String} (h : k' ≠ k) :
    lookupEvent (delEvent m k) k' = lookupEvent m k' := by
  induction m with
  | nil => rw [delEvent_nil]
  | cons p rest ih =>
    obtain ⟨k₀, v⟩ := p
    by_cases hk : k₀ = k
    · subst hk
      rw [delEvent_cons, if_pos rfl, ih, lookupEvent_cons, if_neg (Ne.symm h)]
    · rw [delEvent_cons, if_neg hk, lookupEvent_cons, lookupEvent_cons, ih]

theorem getEvent_delEvent_ne (m : List (String × List listener))
    {k k' : String} (h : k' ≠ k) :
    getEvent (delEvent m k) k' = getEvent m k' := by
  simp [getEvent, lookupEvent_delEvent_ne m h]

theorem mem_delEvent {m : List (String × List listener)} {k : String}
    {q : String × List listener} :
    q ∈ delEvent m k ↔ q ∈ m ∧ q.1 ≠ k := by
  induction m with
  | nil => simp [delEvent_nil]
  | cons p rest ih =>
    obtain ⟨k', v⟩ := p
    by_cases hk : k' = k
    · subst hk
      rw [delEvent_cons, if_pos rfl, ih]
      constructor
      · rintro ⟨hq, hne⟩
        exact ⟨List.mem_cons_of_mem _ hq, hne⟩
      · rintro ⟨hq, hne⟩
        rcases List.mem_cons.1 hq with rfl | hq'
        · exact absurd rfl hne
        · exact ⟨hq', hne⟩
    · rw [delEvent_cons, if_neg hk]
      constructor
      · intro hq
        rcases List.mem_cons.1 hq with rfl | hq'
        · exact ⟨List.mem_cons_self _ _, hk⟩
        · obtain ⟨hq'', hne⟩ := ih.1 hq'
          exact ⟨List.mem_cons_of_mem _ hq'', hne⟩
      · rintro ⟨hq, hne⟩
        rcases List.mem_cons.1 hq with rfl | hq'
        · exact List.mem_cons_self _ _
        · exact List.mem_cons_of_mem _ (ih.2 ⟨hq', hne⟩)

theorem mem_setEvent {m : List (String × List listener)} {k : String}
    {v : List listener} {q : String × List listener}
    (h : q ∈ setEvent m k v) : q = (k, v) ∨ q ∈ m := by
  induction m with
  | nil =>
    rw [setEvent_nil] at h
    exact Or.inl (List.mem_singleton.1 h)
  | cons p rest ih =>
    obtain ⟨k', v'⟩ := p
    by_cases hk : k' = k
    · rw [setEvent_cons, if_pos hk] at h
      rcases List.mem_cons.1 h with rfl | h'
      · exact Or.inl rfl
      · exact Or.inr (List.mem_cons_of_mem _ h')
    · rw [setEvent_cons, if_neg hk] at h
      rcases List.mem_cons.1 h with rfl | h'
      · exact Or.inr (List.mem_cons_self _ _)
      · rcases ih h' with h'' | h''
        · exact Or.inl h''
        · exact Or.inr (List.mem_cons_of_mem _ h'')

theorem map_fst_setEvent (m : List (String × List listener)) (k : String)
    (v : List listener) :
    (setEvent m k v).map Prod.fst =
      if k ∈ m.map Prod.fst then m.map Prod.fst else m.map Prod.fst ++ [k] := by
  induction m with
  | nil => simp [setEvent_nil]
  | cons p rest ih =>
    obtain ⟨k', v'⟩ := p
    by_cases hk : k' = k
    · subst hk
      rw [setEvent_cons, if_pos rfl]
      simp
    · rw [setEvent_cons, if_neg hk]
      simp only [List.map_cons, ih]
      by_cases hmem : k ∈ rest.map Prod.fst
      · simp [hmem, Ne.symm hk]
      · simp [hmem, Ne.symm hk]

theorem nodup_keys_setEvent {m : List (String × List listener)} {k : String}
    {v : List listener} (h : (m.map Prod.fst).Nodup) :
    ((setEvent m k v).map Prod.fst).Nodup := by
  rw [map_fst_setEvent]
  by_cases hmem : k ∈ m.map Prod.fst
  · simpa [hmem] using h
  · simp only [if_neg hmem]
    refine List.Nodup.append h (List.nodup_singleton k) ?_
    intro a ha hb
    rw [List.mem_singleton] at hb
    subst hb
    exact hmem ha

theorem nodup_keys_delEvent {m : List (String × List listener)} {k : String}
    (h : (m.map Prod.fst).Nodup) : ((delEvent m k).map Prod.fst).Nodup := by
  induction m with
  | nil => simp [delEvent]
  | cons p rest ih =>
    obtain ⟨k', v⟩ := p
    simp only [List.map_cons, List.nodup_cons] at h
    by_cases hk : k' = k
    · simp only [delEvent, if_pos hk]
      exact ih h.2
    · simp only [delEvent, if_neg hk, List.map_cons, List.nodup_cons]
      refine ⟨fun hmem => ?_, ih h.2⟩
      rcases List.mem_map.1 hmem with ⟨q, hq, hq1⟩
      exact h.1 (List.mem_map.2 ⟨q, (mem_delEvent.1 hq).1, hq1⟩)

theorem mem_setEvent_nodup {m : List (String × List listener)} {k : String}
    {v : List listener} {q : String × List listener}
    (hnd : (m.map Prod.fst).Nodup) (h : q ∈ setEvent m k v) :
    q = (k, v) ∨ (q ∈ m ∧ q.1 ≠ k) := by
  induction m with
  | nil =>
    rw [setEvent_nil] at h
    exact Or.inl (List.mem_singleton.1 h)
  | cons p rest ih =>
    obtain ⟨k', v'⟩ := p
    simp only [List.map_cons, List.nodup_cons] at hnd
    obtain ⟨hknotin, hndrest⟩ := hnd
    by_cases hk : k' = k
    · subst hk
      rw [setEvent_cons, if_pos rfl] at h
      rcases List.mem_cons.1 h with rfl | h'
      · exact Or.inl rfl
      · refine Or.inr ⟨List.mem_cons_of_mem _ h', fun hq => ?_⟩
        exact hknotin (List.mem_map.2 ⟨q, h', hq⟩)
    · rw [setEvent_cons, if_neg hk] at h
      rcases List.mem_cons.1 h with rfl | h'
      · exact Or.inr ⟨List.mem_cons_self _ _, hk⟩
      · rcases ih hndrest h' with h'' | ⟨hq, hne⟩
        · exact Or.inl h''
        · exact Or.inr ⟨List.mem_cons_of_mem _ hq, hne⟩

theorem setEvent_self_of_lookup {m : List (String × List listener)} {k : String}
    {v : List listener} (h : lookupEvent m k = some v) : setEvent m k v = m := by
  induction m with
  | nil => simp [lookupEvent_nil] at h
  | cons p rest ih =>
    obtain ⟨k', v'⟩ := p
    by_cases hk : k' = k
    · subst hk
      rw [lookupEvent_cons, if_pos rfl] at h
      injection h with h
      subst h
      rw [setEvent_cons, if_pos rfl]
    · rw [lookupEvent_cons, if_neg hk] at h
      rw [setEvent_cons, if_neg hk, ih h]

/-! ### Lemmas about the first-match removal loop of `Off` -/

theorem removeById_of_not_mem {ls : List listener} {i : Nat}
    (h : ∀ l ∈ ls, l.id ≠ i) : removeById ls i = ls := by
  induction ls with
  | nil => rfl
  | cons l rest ih =>
    rw [removeById, if_neg (h l (List.mem_cons_self _ _)),
      ih fun x hx => h x (List.mem_cons_of_mem _ hx)]

theorem removeById_append {l1 l2 : List listener} {i : Nat} {cb : List Act}
    (h : ∀ l ∈ l1, l.id ≠ i) :
    removeById (l1 ++ { id := i, callback := cb } :: l2) i = l1 ++ l2 := by
  induction l1 with
  | nil => simp [removeById]
  | cons l rest ih =>
    rw [List.cons_append, removeById, if_neg (h l (List.mem_cons_self _ _)),
      ih fun x hx => h x (List.mem_cons_of_mem _ hx), List.cons_append]

theorem removeById_sublist (ls : List listener) (i : Nat) :
    (removeById ls i).Sublist ls := by
  induction ls with
  | nil => exact List.Sublist.refl _
  | cons l rest ih =>
    rw [removeById]
    by_cases hl : l.id = i
    · rw [if_pos hl]
      exact List.sublist_cons_of_sublist _ (List.Sublist.refl _)
    · rw [if_neg hl]
      exact List.Sublist.cons₂ _ ih

theorem mem_of_mem_removeById {ls : List listener} {i : Nat} {l : listener}
    (h : l ∈ removeById ls i) : l ∈ ls :=
  (removeById_sublist ls i).mem h

theorem countP_removeById_zero {ls : List listener} {i : Nat}
    (h : ls.countP (fun l => l.id == i) ≤ 1) :
    (removeById ls i).countP (fun l => l.id == i) = 0 := by
  induction ls with
  | nil => rfl
  | cons l rest ih =>
    rw [removeById]
    by_cases hl : l.id = i
    · rw [if_pos hl]
      rw [List.countP_cons] at h
      simp only [hl, beq_self_eq_true, if_pos] at h
      omega
    · rw [if_neg hl, List.countP_cons]
      rw [List.countP_cons] at h
      simp only [beq_iff_eq, hl] at h ⊢
      simpa using ih (by omega)

/-! ### Characterisation of `On` -/

theorem On_limit {e : Zagro} {event : String} (cb : List Act)
    (h : 0 < e.maxListeners ∧ e.maxListeners ≤ (getEvent e.events event).length) :
    e.On event cb = (0, some ("max listeners exceeded for event: " ++ event), e) := by
  rw [Zagro.On, if_pos h]

theorem On_ok {e : Zagro} {event : String} (cb : List Act)
    (h : ¬(0 < e.maxListeners ∧ e.maxListeners ≤ (getEvent e.events event).length)) :
    e.On event cb = (e.nextID + 1, none,
      { e with
        nextID := e.nextID + 1
        events := setEvent e.events event
          (getEvent e.events event ++
            [{ id := e.nextID + 1, callback := cb }]) }) := by
  rw [Zagro.On, if_neg h]

theorem On_err_cases (e : Zagro) (event : String) (cb : List Act) :
    (e.On event cb).2.1 = none ↔
      ¬(0 < e.maxListeners ∧ e.maxListeners ≤ (getEvent e.events event).length) := by
  by_cases h : 0 < e.maxListeners ∧ e.maxListeners ≤ (getEvent e.events event).length
  · rw [On_limit cb h]
    simp [h]
  · rw [On_ok cb h]
    simp [h]

/-! ### Interpreter equations and structural lemmas -/

section RunSeqLemmas

variable (emitF : Zagro → Trace → String → ZagroMessage → Zagro × Trace)

theorem runSeq_nil (s : Zagro) (tr : Trace) (msg : ZagroMessage) :
    runSeq emitF s tr msg [] = (s, tr) := rfl

theorem runSeq_tell (s : Zagro) (tr : Trace) (msg : ZagroMessage) (u : Nat)
    (rest : List Act) :
    runSeq emitF s tr msg (Act.tell u :: rest) =
      runSeq emitF s (tr ++ [(u, msg)]) msg rest := rfl

theorem runSeq_on (s : Zagro) (tr : Trace) (msg : ZagroMessage) (ev : String)
    (b : List Act) (rest : List Act) :
    runSeq emitF s tr msg (Act.on ev b :: rest) =
      runSeq emitF (s.On ev b).2.2 tr msg rest := rfl

theorem runSeq_once (s : Zagro) (tr : Trace) (msg : ZagroMessage) (ev : String)
    (b : List Act) (rest : List Act) :
    runSeq emitF s tr msg (Act.once ev b :: rest) =
      runSeq emitF (s.Once ev b).2.2 tr msg rest := rfl

theorem runSeq_off (s : Zagro) (tr : Trace) (msg : ZagroMessage) (ev : String)
    (i : Nat) (rest : List Act) :
    runSeq emitF s tr msg (Act.off ev i :: rest) =
      runSeq emitF (s.Off ev i) tr msg rest := rfl

theorem runSeq_removeAll (s : Zagro) (tr : Trace) (msg : ZagroMessage)
    (ev : String) (rest : List Act) :
    runSeq emitF s tr msg (Act.removeAll ev :: rest) =
      runSeq emitF (s.RemoveAll ev) tr msg rest := rfl

theorem runSeq_emit (s : Zagro) (tr : Trace) (msg : ZagroMessage) (ev : String)
    (m : ZagroMessage) (rest : List Act) :
    runSeq emitF s tr msg (Act.emit ev m :: rest) =
      runSeq emitF (emitF s tr ev m).1 (emitF s tr ev m).2 msg rest := rfl

/-- Sequential decomposition of one dispatch: the actions after a prefix run
from whatever state the prefix produced, but the action list itself is the
snapshot fixed up front — re-entrant mutations cannot change it. -/
theorem runSeq_append (xs ys : List Act) :
    ∀ (s : Zagro) (tr : Trace) (msg : ZagroMessage),
      runSeq emitF s tr msg (xs ++ ys) =
        runSeq emitF (runSeq emitF s tr msg xs).1
          (runSeq emitF s tr msg xs).2 msg ys := by
  induction xs with
  | nil => intro s tr msg; rfl
  | cons a rest ih =>
    intro s tr msg
    cases a <;> simp only [List.cons_append, runSeq_tell, runSeq_on, runSeq_once,
      runSeq_off, runSeq_removeAll, runSeq_emit, runSeq_nil] <;> exact ih _ _ _

/-- Preservation combinator: any state predicate preserved by the four
mutating operations and by the nested dispatcher is preserved by a whole
dispatch sequence. -/
theorem runSeq_preserves (P : Zagro → Prop)
    (hOn : ∀ (s : Zagro) (ev : String) (cb : List Act), P s → P (s.On ev cb).2.2)
    (hOff : ∀ (s : Zagro) (ev : String) (i : Nat), P s → P (s.Off ev i))
    (hRem : ∀ (s : Zagro) (ev : String), P s → P (s.RemoveAll ev))
    (hE : ∀ (s : Zagro) (tr : Trace) (ev : String) (m : ZagroMessage),
      P s → P (emitF s tr ev m).1) :
    ∀ (acts : List Act) (s : Zagro) (tr : Trace) (msg : ZagroMessage),
      P s → P (runSeq emitF s tr msg acts).1 := by
  intro acts
  induction acts with
  | nil => intro s tr msg hs; exact hs
  | cons a rest ih =>
    intro s tr msg hs
    rcases a with u | ⟨ev, b⟩ | ⟨ev, b⟩ | ⟨ev, i⟩ | ev | ⟨ev, m⟩
    · exact ih _ _ _ hs
    · exact ih _ _ _ (hOn _ _ _ hs)
    · exact ih _ _ _ (hOn _ _ _ hs)
    · exact ih _ _ _ (hOff _ _ _ hs)
    · exact ih _ _ _ (hRem _ _ hs)
    · exact ih _ _ _ (hE _ _ _ _ hs)

end RunSeqLemmas

theorem emitAux_preserves (P : Zagro → Prop)
    (hOn : ∀ (s : Zagro) (ev : String) (cb : List Act), P s → P (s.On ev cb).2.2)
    (hOff : ∀ (s : Zagro) (ev : String) (i : Nat), P s → P (s.Off ev i))
    (hRem : ∀ (s : Zagro) (ev : String), P s → P (s.RemoveAll ev)) :
    ∀ (fuel : Nat) (s : Zagro) (tr : Trace) (ev : String) (m : ZagroMessage),
      P s → P (emitAux fuel s tr ev m).1 := by
  intro fuel
  induction fuel with
  | zero => intro s tr ev m hs; exact hs
  | succ f ih =>
    intro s tr ev m hs
    exact runSeq_preserves (emitAux f) P hOn hOff hRem ih _ _ _ _ hs

theorem Emit_preserves (P : Zagro → Prop)
    (hOn : ∀ (s : Zagro) (ev : String) (cb : List Act), P s → P (s.On ev cb).2.2)
    (hOff : ∀ (s : Zagro) (ev : String) (i : Nat), P s → P (s.Off ev i))
    (hRem : ∀ (s : Zagro) (ev : String), P s → P (s.RemoveAll ev))
    (fuel : Nat) (s : Zagro) (ev : String) (m : ZagroMessage)
    (hs : P s) : P (s.Emit fuel ev m).1 :=
  runSeq_preserves (emitAux fuel) P hOn hOff hRem
    (emitAux_preserves P hOn hOff hRem fuel) _ _ _ _ hs

/-! ### Characterisation of `Off`, `RemoveAll`, `Count` -/

theorem lookup_of_getEvent_ne_nil {m : List (String × List listener)}
    {ev : String} (h : getEvent m ev ≠ []) :
    lookupEvent m ev = some (getEvent m ev) := by
  cases hl : lookupEvent m ev with
  | none => exact absurd (getEvent_eq_of_lookup_none hl) h
  | some ls => rw [getEvent_eq_of_lookup_some hl]

theorem Off_absent {e : Zagro} {ev : String} (i : Nat)
    (h : lookupEvent e.events ev = none) : e.Off ev i = e := by
  rw [Zagro.Off, h]

theorem Off_no_match {e : Zagro} {ev : String} {i : Nat} {ls : List listener}
    (hlk : lookupEvent e.events ev = some ls) (hne : ls ≠ [])
    (h : ∀ l ∈ ls, l.id ≠ i) : e.Off ev i = e := by
  rw [Zagro.Off, hlk]
  simp only [removeById_of_not_mem h]
  rw [if_neg (by simpa using hne), setEvent_self_of_lookup hlk]

theorem Off_found {e : Zagro} {ev : String} {i : Nat} {cb : List Act}
    {l1 l2 : List listener}
    (hget : getEvent e.events ev = l1 ++ { id := i, callback := cb } :: l2)
    (hl1 : ∀ l ∈ l1, l.id ≠ i) :
    e.Off ev i =
      if (l1 ++ l2).length = 0 then { e with events := delEvent e.events ev }
      else { e with events := setEvent e.events ev (l1 ++ l2) } := by
  have hne : getEvent e.events ev ≠ [] := by
    rw [hget]; simp
  have hlk := lookup_of_getEvent_ne_nil hne
  rw [hget] at hlk
  rw [Zagro.Off, hlk]
  simp only [removeById_append hl1]

theorem Off_last {e : Zagro} {ev : String} {i : Nat} {cb : List Act}
    (hget : getEvent e.events ev = [{ id := i, callback := cb }]) :
    e.Off ev i = { e with events := delEvent e.events ev } := by
  have := @Off_found e ev i cb [] [] (by simpa using hget) (by simp)
  simpa using this

theorem Count_eq (e : Zagro) (ev : String) :
    e.Count ev = (getEvent e.events ev).length := rfl

theorem RemoveAll_eq (e : Zagro) (ev : String) :
    e.RemoveAll ev = { e with events := delEvent e.events ev } := rfl

/-! ### C2 — per-event listener limit -/

/-- C2: with a positive `MaxListeners` K, `On` (and `Once`, which has the
same error behaviour) fails exactly when the event's current listener count
has already reached K, and on failure the callback is not added (the state
is untouched); the limit is per event name, so any event whose count is
still below K accepts a registration; after an `Off` that removes a
listener of a full event, a subsequent registration for that event
succeeds; with `MaxListeners = 0` registration never fails. -/
theorem limit_enforcement (e : Zagro) (ev : String) (cb : List Act) :
    (0 < e.maxListeners →
      (((e.On ev cb).2.1 ≠ none) ↔ e.maxListeners ≤ e.Count ev))
    ∧ ((e.On ev cb).2.1 ≠ none → (e.On ev cb).2.2 = e)
    ∧ (e.maxListeners = 0 → (e.On ev cb).2.1 = none)
    ∧ (e.Once ev cb).2.1 = (e.On ev cb).2.1
    ∧ (∀ (i : Nat) (cb2 : List Act) (l1 l2 : List listener),
        0 < e.maxListeners → e.Count ev = e.maxListeners →
        getEvent e.events ev = l1 ++ { id := i, callback := cb2 } :: l2 →
        (∀ l ∈ l1, l.id ≠ i) →
        ((e.Off ev i).On ev cb).2.1 = none) := by
  refine ⟨fun hpos => ?_, ?_, fun h0 => ?_, ?_, ?_⟩
  · by_cases hcond : 0 < e.maxListeners ∧
        e.maxListeners ≤ (getEvent e.events ev).length
    · constructor
      · intro _
        rw [Count_eq]
        exact hcond.2
      · intro _
        rw [On_limit cb hcond]
        simp
    · rw [On_ok cb hcond]
      simp only [ne_eq, not_true_eq_false, false_iff]
      rw [Count_eq]
      intro hle
      exact hcond ⟨hpos, hle⟩
  · intro hne
    by_cases hcond : 0 < e.maxListeners ∧
        e.maxListeners ≤ (getEvent e.events ev).length
    · rw [On_limit cb hcond]
    · rw [On_ok cb hcond] at hne
      exact absurd rfl hne
  · rw [On_err_cases]
    rintro ⟨hpos, -⟩
    omega
  · by_cases hcond : 0 < e.maxListeners ∧
        e.maxListeners ≤ (getEvent e.events ev).length
    · rw [Zagro.Once, On_limit _ hcond, On_limit cb hcond]
    · rw [Zagro.Once, On_ok _ hcond, On_ok cb hcond]
  · intro i cb2 l1 l2 hpos hcnt hget hl1
    have hc : l1.length + l2.length + 1 = e.maxListeners := by
      rw [Count_eq, hget] at hcnt
      simp only [List.length_append, List.length_cons] at hcnt
      omega
    rw [Off_found hget hl1]
    by_cases hlen : (l1 ++ l2).length = 0
    · rw [if_pos hlen]
      rw [On_err_cases]
      simp only [getEvent_eq_of_lookup_none (lookupEvent_delEvent_self _ _),
        List.length_nil]
      simp only [List.length_append] at hlen
      rintro ⟨-, hle⟩
      omega
    · rw [if_neg hlen]
      rw [On_err_cases]
      simp only [getEvent_setEvent_self, List.length_append]
      rintro ⟨-, hle⟩
      omega

/-- C2 witness: limit 1, one listener on "a": the second registration on
"a" fails, a registration on "b" succeeds, and after removing the "a"
listener registration on "a" succeeds again. -/
theorem limit_enforcement_witness :
    ((((NewZagro [{ MaxListeners := 1 }]).On "a" []).2.2.On "a" []).2.1 ≠ none)
    ∧ ((((NewZagro [{ MaxListeners := 1 }]).On "a" []).2.2.On "b" []).2.1 = none)
    ∧ (((((NewZagro [{ MaxListeners := 1 }]).On "a" []).2.2.Off "a" 1).On "a"
          []).2.1 = none) := by
  refine ⟨?_, ?_, ?_⟩
  · exact ((limit_enforcement ((NewZagro [{ MaxListeners := 1 }]).On "a" []).2.2
      "a" []).1 (by decide)).mpr (by decide)
  · by_contra hne
    exact absurd (((limit_enforcement
      ((NewZagro [{ MaxListeners := 1 }]).On "a" []).2.2 "b" []).1
        (by decide)).mp hne) (by decide)
  · exact (limit_enforcement ((NewZagro [{ MaxListeners := 1 }]).On "a" []).2.2
      "a" []).2.2.2.2 1 [] [] [] (by decide) (by decide) rfl (by simp)

/-! ### C9 — failed registration is atomic, ids are 0 on failure, ≥1 on success -/

/-- C9: a failed `On` (or `Once`) returns id 0 and leaves the whole state —
registry and `nextID` counter — exactly as it was; a successful `On`
returns `nextID + 1 ≥ 1`, so 0 is never a live listener id. -/
theorem on_failure_atomic (e : Zagro) (ev : String) (cb : List Act) :
    ((e.On ev cb).2.1 ≠ none → (e.On ev cb).2.2 = e ∧ (e.On ev cb).1 = 0)
    ∧ ((e.On ev cb).2.1 = none →
        (e.On ev cb).1 = e.nextID + 1 ∧ 1 ≤ (e.On ev cb).1
          ∧ (e.On ev cb).2.2.nextID = (e.On ev cb).1)
    ∧ ((e.Once ev cb).2.1 ≠ none →
        (e.Once ev cb).2.2 = e ∧ (e.Once ev cb).1 = 0) := by
  by_cases hcond : 0 < e.maxListeners ∧
      e.maxListeners ≤ (getEvent e.events ev).length
  · refine ⟨fun _ => ?_, fun h => ?_, fun _ => ?_⟩
    · rw [On_limit cb hcond]
      exact ⟨rfl, rfl⟩
    · rw [On_limit cb hcond] at h
      exact absurd h (by simp)
    · rw [Zagro.Once, On_limit _ hcond]
      exact ⟨rfl, rfl⟩
  · refine ⟨fun h => ?_, fun _ => ?_, fun h => ?_⟩
    · rw [On_ok cb hcond] at h
      exact absurd rfl h
    · rw [On_ok cb hcond]
      exact ⟨rfl, by omega, rfl⟩
    · rw [Zagro.Once, On_ok _ hcond] at h
      exact absurd rfl h

/-- C9 witness: with limit 1 and "a" full, registering on "a" fails
atomically with id 0; on the fresh emitter the first registration returns
id 1. -/
theorem on_failure_atomic_witness :
    ((((NewZagro [{ MaxListeners := 1 }]).On "a" []).2.2.On "a" []).2.2 =
        ((NewZagro [{ MaxListeners := 1 }]).On "a" []).2.2
      ∧ (((NewZagro [{ MaxListeners := 1 }]).On "a" []).2.2.On "a" []).1 = 0)
    ∧ ((NewZagro []).On "a" []).1 = 1 := by
  refine ⟨(on_failure_atomic ((NewZagro [{ MaxListeners := 1 }]).On "a" []).2.2
    "a" []).1 (by decide), ?_⟩
  exact ((on_failure_atomic (NewZagro []) "a" []).2.1 (by decide)).1

/-! ### C10 — Count and CountAll are pure observers -/

/-- C10: the Go bodies of `Count` and `CountAll` only read the registry
under the lock, so their embedding leaves the state — registry and
`nextID` — unchanged, returns the stored slice length (0 for an unknown
name), and reading an unknown name does not create an entry for it. -/
theorem count_pure_observer (s : Zagro) (ev : String) :
    applyOp s (Op.countOp ev) = s
    ∧ applyOp s Op.countAllOp = s
    ∧ s.Count ev = (getEvent s.events ev).length
    ∧ (lookupEvent s.events ev = none →
        s.Count ev = 0
          ∧ lookupEvent (applyOp s (Op.countOp ev)).events ev = none) := by
  refine ⟨rfl, rfl, rfl, fun h => ⟨?_, h⟩⟩
  rw [Count_eq, getEvent_eq_of_lookup_none h]
  rfl

/-- C10 witness: an unknown event name on the fresh emitter counts 0 and
acquires no registry entry. -/
theorem count_pure_observer_witness :
    (NewZagro []).Count "x" = 0
    ∧ lookupEvent (applyOp (NewZagro []) (Op.countOp "x")).events "x" = none :=
  (count_pure_observer (NewZagro []) "x").2.2.2 rfl

/-! ### C7 — Off removes exactly the identified listener -/

/-- C7: `Off(event, id)` is a no-op when the event key is absent or no
listener of that event has the id; when the listener is present it removes
exactly that listener — the count drops by exactly one, the remaining
listeners keep their relative order, other events are untouched — and if
it was the last listener the event key is dropped from the registry. -/
theorem off_removal (e : Zagro) (ev : String) :
    (∀ i : Nat, lookupEvent e.events ev = none → e.Off ev i = e)
    ∧ (∀ (i : Nat) (ls : List listener), lookupEvent e.events ev = some ls →
        ls ≠ [] → (∀ l ∈ ls, l.id ≠ i) → e.Off ev i = e)
    ∧ (∀ (i : Nat) (cb : List Act) (l1 l2 : List listener),
        getEvent e.events ev = l1 ++ { id := i, callback := cb } :: l2 →
        (∀ l ∈ l1, l.id ≠ i) →
        (e.Off ev i).Count ev + 1 = e.Count ev
          ∧ (l1 ++ l2 = [] → lookupEvent (e.Off ev i).events ev = none)
          ∧ (l1 ++ l2 ≠ [] → getEvent (e.Off ev i).events ev = l1 ++ l2)
          ∧ ∀ ev2, ev2 ≠ ev →
              getEvent (e.Off ev i).events ev2 = getEvent e.events ev2) := by
  refine ⟨fun i h => Off_absent i h, fun i ls hlk hne h => Off_no_match hlk hne h,
    fun i cb l1 l2 hget hl1 => ?_⟩
  rw [Off_found hget hl1]
  by_cases hlen : (l1 ++ l2).length = 0
  · rw [if_pos hlen]
    have hnil : l1 ++ l2 = [] := List.length_eq_zero.1 hlen
    refine ⟨?_, fun _ => lookupEvent_delEvent_self _ _, fun h => absurd hnil h,
      fun ev2 h2 => getEvent_delEvent_ne _ h2⟩
    rw [Count_eq, Count_eq, hget,
      getEvent_eq_of_lookup_none (lookupEvent_delEvent_self _ _)]
    simp only [List.length_append] at hlen ⊢
    simp only [List.length_nil, List.length_cons]
    omega
  · rw [if_neg hlen]
    refine ⟨?_, fun h => absurd (by rw [h]; rfl) hlen,
      fun _ => getEvent_setEvent_self _ _ _,
      fun ev2 h2 => getEvent_setEvent_ne _ _ h2⟩
    rw [Count_eq, Count_eq, hget, getEvent_setEvent_self]
    simp only [List.length_append, List.length_cons]
    omega

/-- C7 witness: two listeners on "e"; removing id 1 leaves exactly the
other listener in order, unknown events and ids are no-ops. -/
theorem off_removal_witness :
    (((((NewZagro []).On "e" [Act.tell 1]).2.2.On "e" [Act.tell 2]).2.2.Off "e"
        1).Count "e" + 1 =
      ((((NewZagro []).On "e" [Act.tell 1]).2.2.On "e" [Act.tell 2]).2.2.Count
        "e"))
    ∧ getEvent (((((NewZagro []).On "e" [Act.tell 1]).2.2.On "e"
        [Act.tell 2]).2.2.Off "e" 1).events) "e" =
      [{ id := 2, callback := [Act.tell 2] }]
    ∧ ((((NewZagro []).On "e" [Act.tell 1]).2.2.On "e" [Act.tell 2]).2.2.Off
        "x" 5) =
      (((NewZagro []).On "e" [Act.tell 1]).2.2.On "e" [Act.tell 2]).2.2 := by
  refine ⟨?_, ?_, ?_⟩
  · exact ((off_removal (((NewZagro []).On "e" [Act.tell 1]).2.2.On "e"
      [Act.tell 2]).2.2 "e").2.2 1 [Act.tell 1] []
      [{ id := 2, callback := [Act.tell 2] }] rfl (by simp)).1
  · exact ((off_removal (((NewZagro []).On "e" [Act.tell 1]).2.2.On "e"
      [Act.tell 2]).2.2 "e").2.2 1 [Act.tell 1] []
      [{ id := 2, callback := [Act.tell 2] }] rfl (by simp)).2.2.1 (by simp)
  · exact (off_removal (((NewZagro []).On "e" [Act.tell 1]).2.2.On "e"
      [Act.tell 2]).2.2 "x").1 5 rfl

/-! ### C8 — Count, CountAll, RemoveAll -/

theorem foldl_add_length (l : List (String × List listener)) (a : Nat) :
    l.foldl (fun c p => c + p.2.length) a = a + (l.map (fun p => p.2.length)).sum := by
  induction l generalizing a with
  | nil => simp
  | cons p rest ih =>
    simp only [List.foldl_cons, List.map_cons, List.sum_cons, ih]
    omega

theorem lookup_of_mem_nodup {m : List (String × List listener)}
    (hnd : (m.map Prod.fst).Nodup) {k : String} {v : List listener}
    (h : (k, v) ∈ m) : lookupEvent m k = some v := by
  induction m with
  | nil => simp at h
  | cons p rest ih =>
    obtain ⟨k', v'⟩ := p
    simp only [List.map_cons, List.nodup_cons] at hnd
    rcases List.mem_cons.1 h with heq | hmem
    · injection heq with h1 h2
      subst h1; subst h2
      rw [lookupEvent_cons, if_pos rfl]
    · have hk : k' ≠ k := by
        intro hk
        subst hk
        exact hnd.1 (List.mem_map.2 ⟨(k', v), hmem, rfl⟩)
      rw [lookupEvent_cons, if_neg hk]
      exact ih hnd.2 hmem

theorem delEvent_of_lookup_none {m : List (String × List listener)}
    {k : String} (h : lookupEvent m k = none) : delEvent m k = m := by
  induction m with
  | nil => rfl
  | cons p rest ih =>
    obtain ⟨k', v⟩ := p
    rw [lookupEvent_cons] at h
    by_cases hk : k' = k
    · rw [if_pos hk] at h
      exact absurd h (by simp)
    · rw [if_neg hk] at h
      rw [delEvent_cons, if_neg hk, ih h]

/-- C8: `Count` returns the stored listener count (0 for an absent name,
without failing); `CountAll` is the sum of `Count` over the event names in
the registry; `RemoveAll` drives the event's count to 0 whatever it was,
and is a no-op when the event has no listeners. -/
theorem count_semantics (e : Zagro) (ev : String) :
    e.Count ev = (getEvent e.events ev).length
    ∧ (lookupEvent e.events ev = none → e.Count ev = 0)
    ∧ (KeysNodup e →
        e.CountAll = ((e.events.map Prod.fst).map (fun k => e.Count k)).sum)
    ∧ (e.RemoveAll ev).Count ev = 0
    ∧ (lookupEvent e.events ev = none → e.RemoveAll ev = e) := by
  refine ⟨rfl, fun h => ?_, fun hnd => ?_, ?_, fun h => ?_⟩
  · rw [Count_eq, getEvent_eq_of_lookup_none h]
    rfl
  · rw [Zagro.CountAll, foldl_add_length, List.map_map]
    have : ∀ p ∈ e.events, ((fun k => e.Count k) ∘ Prod.fst) p = p.2.length := by
      rintro ⟨k, v⟩ hp
      simp only [Function.comp_apply, Count_eq]
      rw [getEvent_eq_of_lookup_some (lookup_of_mem_nodup hnd hp)]
    rw [List.map_congr_left this]
    omega
  · rw [Count_eq, RemoveAll_eq,
      getEvent_eq_of_lookup_none (lookupEvent_delEvent_self _ _)]
    rfl
  · rw [RemoveAll_eq, delEvent_of_lookup_none h]

/-- C8 witness: two listeners on "e" and one on "f" give `CountAll = 3`;
`RemoveAll "e"` zeroes "e"; `RemoveAll` of an unknown name is a no-op. -/
theorem count_semantics_witness :
    ((((NewZagro []).On "e" [Act.tell 1]).2.2.On "e" [Act.tell 2]).2.2.On "f"
        [Act.tell 3]).2.2.CountAll =
      ((((((NewZagro []).On "e" [Act.tell 1]).2.2.On "e"
        [Act.tell 2]).2.2.On "f" [Act.tell 3]).2.2.events.map Prod.fst).map
          (fun k => (((((NewZagro []).On "e" [Act.tell 1]).2.2.On "e"
            [Act.tell 2]).2.2.On "f" [Act.tell 3]).2.2.Count k))).sum
    ∧ (((((NewZagro []).On "e" [Act.tell 1]).2.2.On "e" [Act.tell 2]).2.2.On
        "f" [Act.tell 3]).2.2.RemoveAll "e").Count "e" = 0
    ∧ (NewZagro []).RemoveAll "x" = NewZagro [] := by
  refine ⟨?_, ?_, ?_⟩
  · exact (count_semantics (((((NewZagro []).On "e" [Act.tell 1]).2.2.On "e"
      [Act.tell 2]).2.2.On "f" [Act.tell 3]).2.2) "e").2.2.1
      (by unfold KeysNodup; decide)
  · exact (count_semantics (((((NewZagro []).On "e" [Act.tell 1]).2.2.On "e"
      [Act.tell 2]).2.2.On "f" [Act.tell 3]).2.2) "e").2.2.2.1
  · exact (count_semantics (NewZagro []) "x").2.2.2.2 rfl

/-! ### C3 — Emit dispatches a snapshot, isolated from re-entrant mutation -/

/-- C3: an `Emit` for an event with no listeners is a no-op returning the
state unchanged with an empty trace; a dispatch runs the snapshotted action
list fixed up front — whatever states the earlier callbacks produce, the
remaining snapshotted callbacks still run, so registrations and removals
during dispatch only affect future `Emit`s.  The concrete scenario: with
listeners [remove-id-2-then-register-tell-9, tell-5], the first `Emit`
still fires tell-5 (removed mid-dispatch) and not tell-9 (added
mid-dispatch); the second `Emit` fires exactly tell-9. -/
theorem emit_snapshot_isolation :
    (∀ (fuel : Nat) (s : Zagro) (ev : String) (m : ZagroMessage),
      getEvent s.events ev = [] → s.Emit fuel ev m = (s, []))
    ∧ (∀ (emitF : Zagro → Trace → String → ZagroMessage → Zagro × Trace)
        (xs ys : List Act) (s : Zagro) (tr : Trace) (m : ZagroMessage),
        runSeq emitF s tr m (xs ++ ys) =
          runSeq emitF (runSeq emitF s tr m xs).1
            (runSeq emitF s tr m xs).2 m ys)
    ∧ ((((NewZagro []).On "e" [Act.off "e" 2, Act.on "e" [Act.tell 9]]).2.2.On
          "e" [Act.tell 5]).2.2.Emit 0 "e" ⟨0⟩).2 = [(5, ⟨0⟩)]
    ∧ (((((NewZagro []).On "e" [Act.off "e" 2, Act.on "e"
          [Act.tell 9]]).2.2.On "e" [Act.tell 5]).2.2.Emit 0 "e"
            ⟨0⟩).1.Emit 0 "e" ⟨0⟩).2 = [(9, ⟨0⟩)] := by
  refine ⟨fun fuel s ev m h => ?_, fun emitF xs ys s tr m => ?_, by decide,
    by decide⟩
  · rw [Zagro.Emit, snapshot, h]
    rfl
  · exact runSeq_append emitF xs ys s tr m

/-- C3 witness: `Emit` on an event with no listeners leaves the fresh
emitter unchanged with no callback invocations. -/
theorem emit_snapshot_isolation_witness :
    (NewZagro []).Emit 3 "x" ⟨1⟩ = (NewZagro [], []) :=
  emit_snapshot_isolation.1 3 (NewZagro []) "x" ⟨1⟩ rfl

/-! ### C4 — dispatch preserves registration order -/

theorem maxListeners_On (s : Zagro) (ev : String) (cb : List Act) :
    ((s.On ev cb).2.2).maxListeners = s.maxListeners := by
  by_cases hcond : 0 < s.maxListeners ∧
      s.maxListeners ≤ (getEvent s.events ev).length
  · rw [On_limit cb hcond]
  · rw [On_ok cb hcond]

theorem getEvent_On_self {s : Zagro} {ev : String} (cb : List Act)
    (h : s.maxListeners = 0) :
    getEvent ((s.On ev cb).2.2).events ev =
      getEvent s.events ev ++ [{ id := s.nextID + 1, callback := cb }] := by
  rw [On_ok cb (by rw [h]; simp)]
  exact getEvent_setEvent_self _ _ _

theorem regAll_nil (s : Zagro) (ev : String) : regAll s ev [] = s := rfl

theorem regAll_cons (s : Zagro) (ev : String) (t : Nat) (ts : List Nat) :
    regAll s ev (t :: ts) = regAll ((s.On ev [Act.tell t]).2.2) ev ts := rfl

theorem regAll_callbacks (ev : String) :
    ∀ (tags : List Nat) (s : Zagro), s.maxListeners = 0 →
      (getEvent (regAll s ev tags).events ev).map listener.callback =
        (getEvent s.events ev).map listener.callback ++
          tags.map (fun t => [Act.tell t]) := by
  intro tags
  induction tags with
  | nil => intro s _; simp [regAll_nil]
  | cons t ts ih =>
    intro s h
    rw [regAll_cons, ih _ (by rw [maxListeners_On]; exact h),
      getEvent_On_self _ h]
    simp

theorem runSeq_tells (emitF : Zagro → Trace → String → ZagroMessage → Zagro × Trace)
    (ts : List Nat) :
    ∀ (s : Zagro) (tr : Trace) (m : ZagroMessage),
      runSeq emitF s tr m (ts.map Act.tell) =
        (s, tr ++ ts.map (fun t => (t, m))) := by
  induction ts with
  | nil => intro s tr m; simp [runSeq_nil]
  | cons t ts ih =>
    intro s tr m
    rw [List.map_cons, runSeq_tell, ih]
    simp

theorem flatten_tell_bodies (ts : List Nat) :
    (ts.map (fun t => [Act.tell t])).flatten = ts.map Act.tell := by
  induction ts with
  | nil => rfl
  | cons t ts ih => simp [ih]

/-- C4: for any finite registration order `tags` of pure observers on an
event previously without listeners, a single `Emit` invokes the callbacks
in exactly that registration order. -/
theorem emit_order_preservation (s0 : Zagro) (ev : String) (tags : List Nat)
    (fuel : Nat) (m : ZagroMessage)
    (hmax : s0.maxListeners = 0) (hempty : getEvent s0.events ev = []) :
    ((regAll s0 ev tags).Emit fuel ev m).2 = tags.map (fun t => (t, m)) := by
  have hcb := regAll_callbacks ev tags s0 hmax
  rw [hempty] at hcb
  simp only [List.map_nil, List.nil_append] at hcb
  rw [Zagro.Emit, snapshot, hcb, flatten_tell_bodies, runSeq_tells]
  simp

/-- C4 witness: three listeners registered as 1, 2, 3 fire in exactly that
order in one `Emit`. -/
theorem emit_order_preservation_witness :
    ((regAll (NewZagro []) "e" [1, 2, 3]).Emit 0 "e" ⟨4⟩).2 =
      [(1, ⟨4⟩), (2, ⟨4⟩), (3, ⟨4⟩)] :=
  emit_order_preservation (NewZagro []) "e" [1, 2, 3] 0 ⟨4⟩ rfl rfl

/-! ### C6 — registry keys always map to at least one listener -/

theorem NonEmptyVals_On (s : Zagro) (ev : String) (cb : List Act)
    (h : NonEmptyVals s) : NonEmptyVals (s.On ev cb).2.2 := by
  by_cases hcond : 0 < s.maxListeners ∧
      s.maxListeners ≤ (getEvent s.events ev).length
  · rw [On_limit cb hcond]
    exact h
  · rw [On_ok cb hcond]
    intro p hp
    rcases mem_setEvent hp with rfl | hp'
    · simp
    · exact h p hp'

theorem NonEmptyVals_Off (s : Zagro) (ev : String) (i : Nat)
    (h : NonEmptyVals s) : NonEmptyVals (s.Off ev i) := by
  cases hlk : lookupEvent s.events ev with
  | none => simpa [Zagro.Off, hlk] using h
  | some ls =>
    by_cases hlen : (removeById ls i).length = 0
    · simp only [Zagro.Off, hlk, hlen, if_pos]
      intro p hp
      exact h p (mem_delEvent.1 hp).1
    · simp only [Zagro.Off, hlk, hlen, if_neg, if_false]
      intro p hp
      rcases mem_setEvent hp with rfl | hp'
      · simpa using List.length_pos.1 (Nat.pos_of_ne_zero hlen)
      · exact h p hp'

theorem NonEmptyVals_RemoveAll (s : Zagro) (ev : String)
    (h : NonEmptyVals s) : NonEmptyVals (s.RemoveAll ev) := by
  rw [RemoveAll_eq]
  intro p hp
  exact h p (mem_delEvent.1 hp).1

theorem NonEmptyVals_applyOp (s : Zagro) (op : Op)
    (h : NonEmptyVals s) : NonEmptyVals (applyOp s op) := by
  cases op with
  | onOp ev cb => exact NonEmptyVals_On s ev cb h
  | onceOp ev cb => exact NonEmptyVals_On s ev _ h
  | emitOp fuel ev m =>
    exact Emit_preserves NonEmptyVals NonEmptyVals_On NonEmptyVals_Off
      NonEmptyVals_RemoveAll fuel s ev m h
  | offOp ev i => exact NonEmptyVals_Off s ev i h
  | removeAllOp ev => exact NonEmptyVals_RemoveAll s ev h
  | countOp ev => exact h
  | countAllOp => exact h

/-- C6: in every state reachable from a fresh emitter by any sequence of
API calls, each registry key has at least one listener; and removing the
last listener of an event — by `Off` (which the `Once` wrapper's
self-removal also goes through) or by `RemoveAll` — drops the key. -/
theorem registry_keys_nonempty (opts : List ZagroOptions) (ops : List Op) :
    NonEmptyVals (runScript opts ops)
    ∧ (∀ (e : Zagro) (ev : String) (i : Nat) (cb : List Act),
        getEvent e.events ev = [{ id := i, callback := cb }] →
        lookupEvent (e.Off ev i).events ev = none)
    ∧ (∀ (e : Zagro) (ev : String),
        lookupEvent (e.RemoveAll ev).events ev = none) := by
  refine ⟨?_, fun e ev i cb hget => ?_, fun e ev => ?_⟩
  · rw [runScript]
    have : ∀ (l : List Op) (s : Zagro), NonEmptyVals s →
        NonEmptyVals (l.foldl applyOp s) := by
      intro l
      induction l with
      | nil => intro s hs; exact hs
      | cons op rest ih =>
        intro s hs
        exact ih _ (NonEmptyVals_applyOp s op hs)
    exact this ops (NewZagro opts) (by intro p hp; simp [NewZagro] at hp)
  · rw [Off_last hget]
    exact lookupEvent_delEvent_self _ _
  · rw [RemoveAll_eq]
    exact lookupEvent_delEvent_self _ _

/-- C6 witness: a concrete script keeps the invariant, and removing the
only listener of "e" deletes the key. -/
theorem registry_keys_nonempty_witness :
    NonEmptyVals (runScript [] [Op.onOp "e" [Act.tell 1], Op.offOp "e" 1])
    ∧ lookupEvent ((((NewZagro []).On "e" [Act.tell 1]).2.2.Off "e"
        1).events) "e" = none :=
  ⟨(registry_keys_nonempty [] [Op.onOp "e" [Act.tell 1], Op.offOp "e" 1]).1,
    (registry_keys_nonempty [] []).2.1 ((NewZagro []).On "e" [Act.tell 1]).2.2
      "e" 1 [Act.tell 1] rfl⟩

/-! ### C5 — listener ids are non-zero and never reused -/

theorem nextID_le_On (s : Zagro) (ev : String) (cb : List Act) :
    s.nextID ≤ ((s.On ev cb).2.2).nextID := by
  by_cases hcond : 0 < s.maxListeners ∧
      s.maxListeners ≤ (getEvent s.events ev).length
  · rw [On_limit cb hcond]
  · rw [On_ok cb hcond]
    exact Nat.le_succ _

theorem nextID_Off (s : Zagro) (ev : String) (i : Nat) :
    (s.Off ev i).nextID = s.nextID := by
  cases hlk : lookupEvent s.events ev with
  | none => simp [Zagro.Off, hlk]
  | some ls =>
    by_cases hlen : (removeById ls i).length = 0
    · simp [Zagro.Off, hlk, hlen]
    · simp [Zagro.Off, hlk, hlen]

theorem nextID_le_Emit (fuel : Nat) (s : Zagro) (ev : String) (m : ZagroMessage) :
    s.nextID ≤ ((s.Emit fuel ev m).1).nextID :=
  Emit_preserves (fun x => s.nextID ≤ x.nextID)
    (fun s' ev' cb h => le_trans h (nextID_le_On s' ev' cb))
    (fun s' ev' i h => by
      show s.nextID ≤ (s'.Off ev' i).nextID
      rw [nextID_Off]
      exact h)
    (fun s' ev' h => h)
    fuel s ev m (le_refl _)

theorem nextID_le_applyOp (s : Zagro) (op : Op) :
    s.nextID ≤ (applyOp s op).nextID := by
  cases op with
  | onOp ev cb => exact nextID_le_On s ev cb
  | onceOp ev cb => exact nextID_le_On s ev _
  | emitOp fuel ev m => exact nextID_le_Emit fuel s ev m
  | offOp ev i => exact le_of_eq (nextID_Off s ev i).symm
  | removeAllOp ev => exact le_refl _
  | countOp ev => exact le_refl _
  | countAllOp => exact le_refl _

theorem regIds_spec :
    ∀ (ops : List Op) (s : Zagro),
      (∀ i ∈ regIds s ops, s.nextID < i) ∧ (regIds s ops).Pairwise (· < ·) := by
  intro ops
  induction ops with
  | nil => intro s; simp [regIds]
  | cons op rest ih =>
    intro s
    obtain ⟨ihlt, ihpw⟩ := ih (applyOp s op)
    have hmono := nextID_le_applyOp s op
    cases op with
    | onOp ev cb =>
      by_cases hok : (s.On ev cb).2.1 = none
      · have hid : (s.On ev cb).1 = s.nextID + 1 := by
          rcases On_err_cases s ev cb |>.1 hok with hcond
          rw [On_ok cb hcond]
        have hnid : (applyOp s (Op.onOp ev cb)).nextID = s.nextID + 1 := by
          rcases On_err_cases s ev cb |>.1 hok with hcond
          show ((s.On ev cb).2.2).nextID = _
          rw [On_ok cb hcond]
        constructor
        · intro i hi
          simp only [regIds, hok, if_pos, List.mem_append, List.mem_singleton] at hi
          rcases hi with rfl | hi
          · omega
          · have := ihlt i hi
            omega
        · simp only [regIds, hok, if_pos, List.singleton_append]
          refine List.Pairwise.cons (fun j hj => ?_) ihpw
          have := ihlt j hj
          omega
      · have hst : (s.On ev cb).2.2 = s := by
          by_cases hcond : 0 < s.maxListeners ∧
              s.maxListeners ≤ (getEvent s.events ev).length
          · rw [On_limit cb hcond]
          · rw [On_ok cb hcond] at hok
            exact absurd rfl hok
        constructor
        · intro i hi
          simp only [regIds, hok, if_neg, List.nil_append] at hi
          have := ihlt i hi
          have : (applyOp s (Op.onOp ev cb)).nextID = s.nextID := by
            show ((s.On ev cb).2.2).nextID = _
            rw [hst]
          omega
        · simpa [regIds, hok] using ihpw
    | onceOp ev cb =>
      by_cases hok : (s.Once ev cb).2.1 = none
      · have hcond : ¬(0 < s.maxListeners ∧
            s.maxListeners ≤ (getEvent s.events ev).length) := by
          rw [Zagro.Once] at hok
          exact (On_err_cases s ev _).1 hok
        have hid : (s.Once ev cb).1 = s.nextID + 1 := by
          rw [Zagro.Once, On_ok _ hcond]
        have hnid : (applyOp s (Op.onceOp ev cb)).nextID = s.nextID + 1 := by
          show ((s.Once ev cb).2.2).nextID = _
          rw [Zagro.Once, On_ok _ hcond]
        constructor
        · intro i hi
          simp only [regIds, hok, if_pos, List.mem_append, List.mem_singleton] at hi
          rcases hi with rfl | hi
          · omega
          · have := ihlt i hi
            omega
        · simp only [regIds, hok, if_pos, List.singleton_append]
          refine List.Pairwise.cons (fun j hj => ?_) ihpw
          have := ihlt j hj
          omega
      · have hst : (s.Once ev cb).2.2 = s := by
          rw [Zagro.Once] at hok ⊢
          by_cases hcond : 0 < s.maxListeners ∧
              s.maxListeners ≤ (getEvent s.events ev).length
          · rw [On_limit _ hcond]
          · rw [On_ok _ hcond] at hok
            exact absurd rfl hok
        constructor
        · intro i hi
          simp only [regIds, hok, if_neg, List.nil_append] at hi
          have h1 := ihlt i hi
          have h2 : (applyOp s (Op.onceOp ev cb)).nextID = s.nextID := by
            show ((s.Once ev cb).2.2).nextID = _
            rw [hst]
          omega
        · simpa [regIds, hok] using ihpw
    | emitOp fuel ev m =>
      refine ⟨fun i hi => ?_, by simpa [regIds] using ihpw⟩
      simp only [regIds, List.nil_append] at hi
      have := ihlt i hi
      omega
    | offOp ev i =>
      refine ⟨fun j hj => ?_, by simpa [regIds] using ihpw⟩
      simp only [regIds, List.nil_append] at hj
      have := ihlt j hj
      omega
    | removeAllOp ev =>
      refine ⟨fun j hj => ?_, by simpa [regIds] using ihpw⟩
      simp only [regIds, List.nil_append] at hj
      have := ihlt j hj
      omega
    | countOp ev =>
      refine ⟨fun j hj => ?_, by simpa [regIds] using ihpw⟩
      simp only [regIds, List.nil_append] at hj
      have := ihlt j hj
      omega
    | countAllOp =>
      refine ⟨fun j hj => ?_, by simpa [regIds] using ihpw⟩
      simp only [regIds, List.nil_append] at hj
      have := ihlt j hj
      omega

/-- C5: along any call sequence on one emitter, the ids handed back by
successful registrations are strictly increasing — hence pairwise distinct,
never 0, and never reused even after their listener is removed. -/
theorem listener_ids_unique (opts : List ZagroOptions) (ops : List Op) :
    (regIds (NewZagro opts) ops).Pairwise (· < ·)
    ∧ ∀ i ∈ regIds (NewZagro opts) ops, 1 ≤ i := by
  obtain ⟨hlt, hpw⟩ := regIds_spec ops (NewZagro opts)
  refine ⟨hpw, fun i hi => ?_⟩
  have := hlt i hi
  simp only [NewZagro] at this
  omega

/-! ### C1 — once semantics: tameness machinery -/

theorem tameActs_nil (t : Nat) : tameActs t [] = true := rfl

theorem tameActs_cons (t : Nat) (a : Act) (rest : List Act) :
    tameActs t (a :: rest) = (tameAct t a && tameActs t rest) := rfl

theorem tameAct_tell (t u : Nat) : tameAct t (Act.tell u) = (u != t) := rfl

theorem tameAct_on (t : Nat) (ev : String) (b : List Act) :
    tameAct t (Act.on ev b) = tameActs t b := rfl

theorem tameAct_once (t : Nat) (ev : String) (b : List Act) :
    tameAct t (Act.once ev b) = tameActs t b := rfl

theorem tameAct_off (t : Nat) (ev : String) (i : Nat) :
    tameAct t (Act.off ev i) = true := rfl

theorem tameAct_removeAll (t : Nat) (ev : String) :
    tameAct t (Act.removeAll ev) = true := rfl

theorem tameAct_emit (t : Nat) (ev : String) (m : ZagroMessage) :
    tameAct t (Act.emit ev m) = false := rfl

theorem tameActs_append (t : Nat) (a b : List Act) :
    tameActs t (a ++ b) = (tameActs t a && tameActs t b) := by
  induction a with
  | nil => simp [tameActs_nil]
  | cons x rest ih =>
    rw [List.cons_append, tameActs_cons, tameActs_cons, ih, Bool.and_assoc]

theorem tameActs_flatten {t : Nat} {bs : List (List Act)}
    (h : ∀ b ∈ bs, tameActs t b = true) : tameActs t bs.flatten = true := by
  induction bs with
  | nil => rfl
  | cons b rest ih =>
    rw [List.flatten_cons, tameActs_append, h b (List.mem_cons_self _ _),
      ih fun x hx => h x (List.mem_cons_of_mem _ hx)]
    rfl

theorem tells_nil (t : Nat) : tells t [] = 0 := rfl

theorem tells_append (t : Nat) (a b : Trace) :
    tells t (a ++ b) = tells t a + tells t b := by
  rw [tells, tells, tells, List.countP_append]

/-- Running a tame action sequence preserves any predicate preserved by the
tame mutators and never reports the observed tag. -/
theorem runSeq_tame (t : Nat) (P : Zagro → Prop)
    (emitF : Zagro → Trace → String → ZagroMessage → Zagro × Trace)
    (hOn : ∀ (s : Zagro) (ev : String) (b : List Act),
      P s → tameActs t b = true → P (s.On ev b).2.2)
    (hOff : ∀ (s : Zagro) (ev : String) (i : Nat), P s → P (s.Off ev i))
    (hRem : ∀ (s : Zagro) (ev : String), P s → P (s.RemoveAll ev)) :
    ∀ (acts : List Act) (s : Zagro) (tr : Trace) (m : ZagroMessage),
      P s → tameActs t acts = true →
      P (runSeq emitF s tr m acts).1 ∧
        tells t (runSeq emitF s tr m acts).2 = tells t tr := by
  intro acts
  induction acts with
  | nil => intro s tr m hs _; exact ⟨hs, rfl⟩
  | cons a rest ih =>
    intro s tr m hs hta
    rw [tameActs_cons, Bool.and_eq_true] at hta
    rcases a with u | ⟨ev, b⟩ | ⟨ev, b⟩ | ⟨ev, i⟩ | ev | ⟨ev, m2⟩
    · rw [runSeq_tell]
      obtain ⟨h1, h2⟩ := ih _ _ _ hs hta.2
      refine ⟨h1, ?_⟩
      rw [h2, tells_append]
      have hu : (u == t) = false := by
        have := hta.1
        rw [tameAct_tell] at this
        simpa using this
      simp [tells, hu]
    · rw [runSeq_on]
      exact ih _ _ _ (hOn s ev b hs (by rw [← tameAct_on t ev b]; exact hta.1))
        hta.2
    · rw [runSeq_once]
      refine ih _ _ _ (hOn s ev _ hs ?_) hta.2
      rw [tameActs_cons, tameAct_off]
      have := hta.1
      rw [tameAct_once] at this
      rw [this]
      rfl
    · rw [runSeq_off]
      exact ih _ _ _ (hOff s ev i hs) hta.2
    · rw [runSeq_removeAll]
      exact ih _ _ _ (hRem s ev hs) hta.2
    · exact absurd hta.1 (by rw [tameAct_emit]; simp)

theorem tame_getEvent {t : Nat} {s : Zagro} {ev : String} {l : listener}
    (h : TameSt t s) (hl : l ∈ getEvent s.events ev) :
    tameActs t l.callback = true := by
  obtain ⟨ls, hlk, hmem⟩ := getEvent_mem hl
  exact h _ (lookupEvent_mem hlk) _ hmem

theorem TameSt_On (t : Nat) (s : Zagro) (ev : String) (b : List Act)
    (hs : TameSt t s) (hb : tameActs t b = true) :
    TameSt t (s.On ev b).2.2 := by
  by_cases hcond : 0 < s.maxListeners ∧
      s.maxListeners ≤ (getEvent s.events ev).length
  · rw [On_limit b hcond]
    exact hs
  · rw [On_ok b hcond]
    intro p hp l hl
    rcases mem_setEvent hp with rfl | hp'
    · rcases List.mem_append.1 hl with hl' | hl'
      · exact tame_getEvent hs hl'
      · rw [List.mem_singleton] at hl'
        subst hl'
        exact hb
    · exact hs p hp' l hl

theorem TameSt_Off (t : Nat) (s : Zagro) (ev : String) (i : Nat)
    (hs : TameSt t s) : TameSt t (s.Off ev i) := by
  cases hlk : lookupEvent s.events ev with
  | none => simpa [Zagro.Off, hlk] using hs
  | some ls =>
    by_cases hlen : (removeById ls i).length = 0
    · simp only [Zagro.Off, hlk, hlen, if_pos]
      intro p hp l hl
      exact hs p (mem_delEvent.1 hp).1 l hl
    · simp only [Zagro.Off, hlk, hlen, if_neg, if_false]
      intro p hp l hl
      rcases mem_setEvent hp with rfl | hp'
      · exact hs _ (lookupEvent_mem hlk) _ (mem_of_mem_removeById hl)
      · exact hs p hp' l hl

theorem TameSt_RemoveAll (t : Nat) (s : Zagro) (ev : String)
    (hs : TameSt t s) : TameSt t (s.RemoveAll ev) := by
  rw [RemoveAll_eq]
  intro p hp l hl
  exact hs p (mem_delEvent.1 hp).1 l hl

/-! ### C1 — dispatch invariant around a pending once-wrapper -/

theorem OnceInv_On (t wid : Nat) (ev : String) (s : Zagro) (ev' : String)
    (b : List Act) (hs : OnceInv t wid ev s) (hb : tameActs t b = true) :
    OnceInv t wid ev (s.On ev' b).2.2 := by
  by_cases hcond : 0 < s.maxListeners ∧
      s.maxListeners ≤ (getEvent s.events ev').length
  · rw [On_limit b hcond]
    exact hs
  · rw [On_ok b hcond]
    have hwid_new : s.nextID + 1 ≠ wid := by
      have := hs.widLe
      omega
    refine ⟨?_, ?_, ?_, ?_, ?_, ?_⟩
    · intro p hp l hl hne
      rcases mem_setEvent hp with rfl | hp'
      · rcases List.mem_append.1 hl with hl' | hl'
        · obtain ⟨ls, hlk, hmem⟩ := getEvent_mem hl'
          exact hs.othersTame _ (lookupEvent_mem hlk) _ hmem hne
        · rw [List.mem_singleton] at hl'
          subst hl'
          exact hb
      · exact hs.othersTame p hp' l hl hne
    · intro p hp l hl hid
      rcases mem_setEvent hp with rfl | hp'
      · rcases List.mem_append.1 hl with hl' | hl'
        · obtain ⟨ls, hlk, hmem⟩ := getEvent_mem hl'
          exact hs.wrapPinned _ (lookupEvent_mem hlk) _ hmem hid
        · rw [List.mem_singleton] at hl'
          subst hl'
          exact absurd hid hwid_new
      · exact hs.wrapPinned p hp' l hl hid
    · by_cases hev : ev' = ev
      · subst hev
        show ((getEvent (setEvent s.events ev' _) ev').countP _) ≤ 1
        rw [getEvent_setEvent_self, List.countP_append]
        have h2 : List.countP (fun l : listener => l.id == wid)
            [({ id := s.nextID + 1, callback := b } : listener)] = 0 := by
          simp [hwid_new]
        rw [h2]
        have := hs.wrapCount
        omega
      · show ((getEvent (setEvent s.events ev' _) ev).countP _) ≤ 1
        rw [getEvent_setEvent_ne _ _ (fun hh => hev hh.symm)]
        exact hs.wrapCount
    · exact nodup_keys_setEvent hs.keysNodup
    · intro p hp l hl
      show l.id ≤ s.nextID + 1
      rcases mem_setEvent hp with rfl | hp'
      · rcases List.mem_append.1 hl with hl' | hl'
        · obtain ⟨ls, hlk, hmem⟩ := getEvent_mem hl'
          have := hs.idsLe _ (lookupEvent_mem hlk) _ hmem
          omega
        · rw [List.mem_singleton] at hl'
          subst hl'
          exact Nat.le_refl _
      · have := hs.idsLe p hp' l hl
        omega
    · show wid ≤ s.nextID + 1
      have := hs.widLe
      omega

theorem OnceInv_Off (t wid : Nat) (ev : String) (s : Zagro) (ev' : String)
    (i : Nat) (hs : OnceInv t wid ev s) : OnceInv t wid ev (s.Off ev' i) := by
  cases hlk : lookupEvent s.events ev' with
  | none => simpa [Zagro.Off, hlk] using hs
  | some ls =>
    have hmem_ls : (ev', ls) ∈ s.events := lookupEvent_mem hlk
    by_cases hlen : (removeById ls i).length = 0
    · simp only [Zagro.Off, hlk, hlen, if_pos]
      refine ⟨?_, ?_, ?_, ?_, ?_, ?_⟩
      · intro p hp l hl hne
        exact hs.othersTame p (mem_delEvent.1 hp).1 l hl hne
      · intro p hp l hl hid
        exact hs.wrapPinned p (mem_delEvent.1 hp).1 l hl hid
      · by_cases hev : ev' = ev
        · subst hev
          show ((getEvent (delEvent s.events ev') ev').countP _) ≤ 1
          rw [getEvent_eq_of_lookup_none (lookupEvent_delEvent_self _ _)]
          simp
        · show ((getEvent (delEvent s.events ev') ev).countP _) ≤ 1
          rw [getEvent_delEvent_ne _ (fun hh => hev hh.symm)]
          exact hs.wrapCount
      · exact nodup_keys_delEvent hs.keysNodup
      · intro p hp l hl
        exact hs.idsLe p (mem_delEvent.1 hp).1 l hl
      · exact hs.widLe
    · simp only [Zagro.Off, hlk, hlen, if_neg, if_false]
      refine ⟨?_, ?_, ?_, ?_, ?_, ?_⟩
      · intro p hp l hl hne
        rcases mem_setEvent hp with rfl | hp'
        · exact hs.othersTame _ hmem_ls _ (mem_of_mem_removeById hl) hne
        · exact hs.othersTame p hp' l hl hne
      · intro p hp l hl hid
        rcases mem_setEvent hp with rfl | hp'
        · exact hs.wrapPinned _ hmem_ls _ (mem_of_mem_removeById hl) hid
        · exact hs.wrapPinned p hp' l hl hid
      · by_cases hev : ev' = ev
        · subst hev
          show ((getEvent (setEvent s.events ev' _) ev').countP _) ≤ 1
          rw [getEvent_setEvent_self]
          have hle := List.Sublist.countP_le (fun l => l.id == wid)
            (removeById_sublist ls i)
          have hget : getEvent s.events ev' = ls := getEvent_eq_of_lookup_some hlk
          have hwc := hs.wrapCount
          rw [hget] at hwc
          omega
        · show ((getEvent (setEvent s.events ev' _) ev).countP _) ≤ 1
          rw [getEvent_setEvent_ne _ _ (fun hh => hev hh.symm)]
          exact hs.wrapCount
      · exact nodup_keys_setEvent hs.keysNodup
      · intro p hp l hl
        rcases mem_setEvent hp with rfl | hp'
        · exact hs.idsLe _ hmem_ls _ (mem_of_mem_removeById hl)
        · exact hs.idsLe p hp' l hl
      · exact hs.widLe

theorem OnceInv_RemoveAll (t wid : Nat) (ev : String) (s : Zagro)
    (ev' : String) (hs : OnceInv t wid ev s) :
    OnceInv t wid ev (s.RemoveAll ev') := by
  rw [RemoveAll_eq]
  refine ⟨?_, ?_, ?_, ?_, ?_, ?_⟩
  · intro p hp l hl hne
    exact hs.othersTame p (mem_delEvent.1 hp).1 l hl hne
  · intro p hp l hl hid
    exact hs.wrapPinned p (mem_delEvent.1 hp).1 l hl hid
  · by_cases hev : ev' = ev
    · subst hev
      show ((getEvent (delEvent s.events ev') ev').countP _) ≤ 1
      rw [getEvent_eq_of_lookup_none (lookupEvent_delEvent_self _ _)]
      simp
    · show ((getEvent (delEvent s.events ev') ev).countP _) ≤ 1
      rw [getEvent_delEvent_ne _ (fun hh => hev hh.symm)]
      exact hs.wrapCount
  · exact nodup_keys_delEvent hs.keysNodup
  · intro p hp l hl
    exact hs.idsLe p (mem_delEvent.1 hp).1 l hl
  · exact hs.widLe

/-! ### C1 — the wrapper's self-removal and the dispatch bookkeeping -/

theorem countW_Off_self (t wid : Nat) (ev : String) (s : Zagro)
    (hs : OnceInv t wid ev s) :
    (getEvent (s.Off ev wid).events ev).countP
      (fun l : listener => l.id == wid) = 0 := by
  cases hlk : lookupEvent s.events ev with
  | none =>
    simp only [Zagro.Off, hlk]
    rw [getEvent_eq_of_lookup_none hlk]
    rfl
  | some ls =>
    by_cases hlen : (removeById ls wid).length = 0
    · simp only [Zagro.Off, hlk, hlen, if_pos]
      rw [getEvent_eq_of_lookup_none (lookupEvent_delEvent_self _ _)]
      rfl
    · simp only [Zagro.Off, hlk, hlen, if_neg, if_false]
      rw [getEvent_setEvent_self]
      apply countP_removeById_zero
      have hwc := hs.wrapCount
      rw [getEvent_eq_of_lookup_some hlk] at hwc
      exact hwc

theorem TameSt_of_no_wid (t wid : Nat) (ev : String) (s : Zagro)
    (hs : OnceInv t wid ev s)
    (h0 : (getEvent s.events ev).countP
      (fun l : listener => l.id == wid) = 0) : TameSt t s := by
  intro p hp l hl
  by_cases hid : l.id = wid
  · obtain ⟨hkey, hcb⟩ := hs.wrapPinned p hp l hl hid
    have hpm : (ev, p.2) ∈ s.events := by
      rw [← hkey]
      simpa using hp
    have hlk : lookupEvent s.events ev = some p.2 :=
      lookup_of_mem_nodup hs.keysNodup hpm
    have hg : getEvent s.events ev = p.2 := getEvent_eq_of_lookup_some hlk
    rw [hg] at h0
    have := List.countP_eq_zero.1 h0 l hl
    simp [hid] at this
  · exact hs.othersTame p hp l hl hid

theorem runSeq_wbody
    (emitF : Zagro → Trace → String → ZagroMessage → Zagro × Trace)
    (t wid : Nat) (ev : String) (s : Zagro) (tr : Trace) (m : ZagroMessage) :
    runSeq emitF s tr m [Act.off ev wid, Act.tell t] =
      (s.Off ev wid, tr ++ [(t, m)]) := rfl

theorem Emit_tame (t : Nat) (fuel : Nat) (s : Zagro) (ev : String)
    (m : ZagroMessage) (hs : TameSt t s) :
    TameSt t (s.Emit fuel ev m).1 ∧ tells t (s.Emit fuel ev m).2 = 0 := by
  have hsnap : tameActs t (snapshot s ev) = true := by
    rw [snapshot]
    apply tameActs_flatten
    intro b hb
    rcases List.mem_map.1 hb with ⟨l, hl, rfl⟩
    exact tame_getEvent hs hl
  have h := runSeq_tame t (TameSt t) (emitAux fuel) (TameSt_On t) (TameSt_Off t)
    (TameSt_RemoveAll t) (snapshot s ev) s [] m hs hsnap
  rw [Zagro.Emit]
  exact ⟨h.1, by rw [h.2]; rfl⟩

theorem emitN_zero (fuel : Nat) (s : Zagro) (ev : String) (m : ZagroMessage) :
    emitN fuel s ev m 0 = (s, []) := rfl

theorem emitN_succ (fuel : Nat) (s : Zagro) (ev : String) (m : ZagroMessage)
    (n : Nat) :
    emitN fuel s ev m (n + 1) =
      ((emitN fuel (s.Emit fuel ev m).1 ev m n).1,
        (s.Emit fuel ev m).2 ++ (emitN fuel (s.Emit fuel ev m).1 ev m n).2) :=
  rfl

theorem emitN_tame (t fuel : Nat) (ev : String) (m : ZagroMessage) :
    ∀ (N : Nat) (s : Zagro), TameSt t s →
      tells t (emitN fuel s ev m N).2 = 0 ∧ TameSt t (emitN fuel s ev m N).1 := by
  intro N
  induction N with
  | zero => intro s hs; exact ⟨rfl, hs⟩
  | succ n ih =>
    intro s hs
    obtain ⟨hT, h0⟩ := Emit_tame t fuel s ev m hs
    obtain ⟨ih0, ihT⟩ := ih _ hT
    rw [emitN_succ]
    refine ⟨?_, ihT⟩
    rw [tells_append, h0, ih0]

/-- One dispatch whose snapshot is a tame prefix followed by the pending
once-wrapper: the observed tag fires exactly once and the resulting state
is wholly tame (the wrapper has removed itself before the user callback
ran). -/
theorem once_first_emit (t wid : Nat) (ev : String) (fuel : Nat)
    (m : ZagroMessage) (s1 : Zagro) (A : List Act)
    (hInv : OnceInv t wid ev s1) (hA : tameActs t A = true)
    (hsnap : snapshot s1 ev = A ++ [Act.off ev wid, Act.tell t]) :
    tells t (s1.Emit fuel ev m).2 = 1 ∧ TameSt t (s1.Emit fuel ev m).1 := by
  rw [Zagro.Emit, hsnap, runSeq_append]
  obtain ⟨hInv2, h0⟩ := runSeq_tame t (OnceInv t wid ev) (emitAux fuel)
    (fun s ev' b hs hb => OnceInv_On t wid ev s ev' b hs hb)
    (fun s ev' i hs => OnceInv_Off t wid ev s ev' i hs)
    (fun s ev' hs => OnceInv_RemoveAll t wid ev s ev' hs) A s1 [] m hInv hA
  rw [runSeq_wbody]
  constructor
  · rw [tells_append, h0]
    simp [tells]
  · exact TameSt_of_no_wid t wid ev _
      (OnceInv_Off t wid ev _ ev wid hInv2)
      (countW_Off_self t wid ev _ hInv2)

/-! ### C1 — once semantics: counterexample and amended theorem -/

/-- C1 counterexample: the claim as stated is false.  On an emitter whose
event "e" first has a plain listener that removes itself and then re-emits
"e", a `Once` listener observing tag 7 fires its user callback TWICE in a
single (N = 1) sequence of top-level `Emit` calls: the nested `Emit` from
the other callback dispatches the still-registered wrapper, and the
top-level snapshot then invokes the same wrapper again (its `Off` is by
then a no-op but the user callback still runs). -/
theorem once_double_fire_reentrant :
    tells 7 (emitN 1 ((((NewZagro []).On "e"
      [Act.off "e" 1, Act.emit "e" ⟨0⟩]).2.2.Once "e" [Act.tell 7]).2.2) "e"
        ⟨0⟩ 1).2 = 2 := by
  decide

/-- C1 (amended): provided every listener already registered on the emitter
is tame for the observed tag — its callback performs no nested `Emit`,
never reports the tag, and registers only such callbacks — a listener
registered via `Once` fires its user callback exactly once across any
N ≥ 1 subsequent sequential `Emit` calls on its event, namely on the first
such `Emit` (and never on the later ones), fires zero times if no `Emit`
occurs, and the wrapper removes its own registration (calling `Off` with
its captured id) before the user callback executes — the registered body is
literally `Off(event, id)` followed by the user callback, so a nested
`Emit` issued from inside the once-callback cannot re-trigger it (concrete
final conjunct: a once-callback that itself re-emits its event still fires
exactly once over two sequential `Emit`s). -/
theorem once_semantics_nonreentrant
    (s0 : Zagro) (ev : String) (t : Nat) (m : ZagroMessage) (N fuel : Nat)
    (hN : 1 ≤ N) (htame : TameSt t s0) (hkeys : KeysNodup s0) (hids : IdsLe s0)
    (hok : (s0.Once ev [Act.tell t]).2.1 = none) :
    tells t (emitN fuel (s0.Once ev [Act.tell t]).2.2 ev m N).2 = 1
    ∧ tells t ((s0.Once ev [Act.tell t]).2.2.Emit fuel ev m).2 = 1
    ∧ (∀ M : Nat, tells t (emitN fuel
        ((s0.Once ev [Act.tell t]).2.2.Emit fuel ev m).1 ev m M).2 = 0)
    ∧ tells t (emitN fuel (s0.Once ev [Act.tell t]).2.2 ev m 0).2 = 0
    ∧ (∀ cb : List Act, getEvent (s0.Once ev cb).2.2.events ev =
        getEvent s0.events ev ++
          [{ id := s0.nextID + 1,
             callback := Act.off ev (s0.nextID + 1) :: cb }])
    ∧ tells 7 (emitN 1 ((NewZagro []).Once "e"
        [Act.emit "e" ⟨0⟩, Act.tell 7]).2.2 "e" ⟨0⟩ 2).2 = 1 := by
  have hcond : ¬(0 < s0.maxListeners ∧
      s0.maxListeners ≤ (getEvent s0.events ev).length) := by
    rw [Zagro.Once] at hok
    exact (On_err_cases s0 ev _).1 hok
  have hs1 : (s0.Once ev [Act.tell t]).2.2 =
      { s0 with
        nextID := s0.nextID + 1
        events := setEvent s0.events ev (getEvent s0.events ev ++
          [{ id := s0.nextID + 1,
             callback := [Act.off ev (s0.nextID + 1), Act.tell t] }]) } := by
    rw [Zagro.Once, On_ok _ hcond]
  have hInv1 : OnceInv t (s0.nextID + 1) ev (s0.Once ev [Act.tell t]).2.2 := by
    rw [hs1]
    refine ⟨?_, ?_, ?_, ?_, ?_, ?_⟩
    · intro p hp l hl hne
      rcases mem_setEvent hp with rfl | hp'
      · rcases List.mem_append.1 hl with hl' | hl'
        · exact tame_getEvent htame hl'
        · rw [List.mem_singleton] at hl'
          subst hl'
          exact absurd rfl hne
      · exact htame p hp' l hl
    · intro p hp l hl hid
      rcases mem_setEvent hp with rfl | hp'
      · rcases List.mem_append.1 hl with hl' | hl'
        · obtain ⟨ls, hlk, hmem⟩ := getEvent_mem hl'
          have := hids _ (lookupEvent_mem hlk) _ hmem
          exact absurd hid (by omega)
        · rw [List.mem_singleton] at hl'
          subst hl'
          exact ⟨rfl, rfl⟩
      · have := hids p hp' l hl
        exact absurd hid (by omega)
    · show ((getEvent (setEvent s0.events ev _) ev).countP _) ≤ 1
      rw [getEvent_setEvent_self, List.countP_append]
      have hg0 : (getEvent s0.events ev).countP
          (fun l : listener => l.id == s0.nextID + 1) = 0 := by
        apply List.countP_eq_zero.2
        intro l hl
        obtain ⟨ls, hlk, hmem⟩ := getEvent_mem hl
        have := hids _ (lookupEvent_mem hlk) _ hmem
        simp only [beq_iff_eq]
        omega
      rw [hg0]
      simp
    · exact nodup_keys_setEvent hkeys
    · intro p hp l hl
      show l.id ≤ s0.nextID + 1
      rcases mem_setEvent hp with rfl | hp'
      · rcases List.mem_append.1 hl with hl' | hl'
        · obtain ⟨ls, hlk, hmem⟩ := getEvent_mem hl'
          have := hids _ (lookupEvent_mem hlk) _ hmem
          omega
        · rw [List.mem_singleton] at hl'
          subst hl'
          exact Nat.le_refl _
      · have := hids p hp' l hl
        omega
    · exact Nat.le_refl _
  have hA : tameActs t
      (((getEvent s0.events ev).map listener.callback).flatten) = true := by
    apply tameActs_flatten
    intro b hb
    rcases List.mem_map.1 hb with ⟨l, hl, rfl⟩
    exact tame_getEvent htame hl
  have hsnap : snapshot (s0.Once ev [Act.tell t]).2.2 ev =
      ((getEvent s0.events ev).map listener.callback).flatten ++
        [Act.off ev (s0.nextID + 1), Act.tell t] := by
    rw [snapshot, hs1]
    show ((getEvent (setEvent s0.events ev _) ev).map listener.callback).flatten
      = _
    rw [getEvent_setEvent_self, List.map_append, List.flatten_append]
    simp
  obtain ⟨hfirst, hT3⟩ := once_first_emit t (s0.nextID + 1) ev fuel m _ _
    hInv1 hA hsnap
  refine ⟨?_, hfirst, fun M => (emitN_tame t fuel ev m M _ hT3).1, rfl,
    fun cb => ?_, by decide⟩
  · cases N with
    | zero => exact absurd hN (by omega)
    | succ n =>
      rw [emitN_succ, tells_append, hfirst, (emitN_tame t fuel ev m n _ hT3).1]
  · rw [Zagro.Once, On_ok _ hcond]
    show getEvent (setEvent s0.events ev _) ev = _
    rw [getEvent_setEvent_self]

/-- C1 witness: with one tame listener (tag 3) already on "e", a `Once`
observer of tag 7 fires exactly once over two sequential `Emit`s. -/
theorem once_semantics_nonreentrant_witness :
    tells 7 (emitN 0 ((((NewZagro []).On "e" [Act.tell 3]).2.2.Once "e"
      [Act.tell 7]).2.2) "e" ⟨0⟩ 2).2 = 1 :=
  (once_semantics_nonreentrant ((NewZagro []).On "e" [Act.tell 3]).2.2 "e" 7
    ⟨0⟩ 2 0 (by omega) (by unfold TameSt; decide) (by unfold KeysNodup; decide)
    (by unfold IdsLe; decide) (by decide)).1

/-- C5 witness: an `On` followed by a `Once` on the fresh emitter return
the strictly increasing ids 1 and 2. -/
theorem listener_ids_unique_witness :
    (regIds (NewZagro []) [Op.onOp "e" [], Op.onceOp "e" []]).Pairwise (· < ·)
    ∧ 1 ≤ 2 :=
  ⟨(listener_ids_unique [] [Op.onOp "e" [], Op.onceOp "e" []]).1,
    (listener_ids_unique [] [Op.onOp "e" [], Op.onceOp "e" []]).2 2 (by decide)⟩
